import Mathlib

/-!
Shallow embedding of `src/dropbox_manager.py` (class `DropboxManager`) and proofs
about its event-processing pipeline.

Strings rendered by Python's `str(...)` are modelled as `List Char`; instants and
durations as `Int` (minutes for the time window, seconds for backoff); the remote
Dropbox service as a script of responses consumed in order by the fetch loop.
The `collections.Counter` held by `process_team_events` is modelled as an
insertion-ordered association list, matching the ordered dict underlying
`Counter` in Python 3.7+.
-/

set_option autoImplicit false

namespace DropboxMgr

/-- The single-quote character on which line 128 tests and line 129 splits. -/
def quote : Char := Char.ofNat 39

/-- An event as observed by `process_team_events`: the five rendered fields read at
lines 117-122 plus the rendered `event_type` used again for tag extraction. -/
structure Event where
  timestamp : List Char
  event_type : List Char
  actor : List Char
  origin : List Char
  assets : List Char
deriving DecidableEq

/-- Python `s.split(sep)` for a one-character separator, on strings as char lists:
empty segments are kept (no collapsing of adjacent separators) and the result is
never the empty list. -/
def pySplit (sep : Char) : List Char → List (List Char)
  | [] => [[]]
  | c :: rest =>
    if c = sep then [] :: pySplit sep rest
    else
      match pySplit sep rest with
      | [] => [[c]]
      | h :: t => (c :: h) :: t

/-- Lines 128-129: when `"'" in str(event.event_type)`, the tag is
`str(event.event_type).split("'")[1]`. The index-1 access is modelled with
`getElem?`; a `none` from it would be Python's `IndexError`, proved unreachable
under the guard (claim C10). Without a quote no tag is extracted. -/
def extractTag (s : List Char) : Option (List Char) :=
  if quote ∈ s then (pySplit quote s)[1]? else none

/-- The guard of line 128. -/
def hasQuote (e : Event) : Bool := decide (quote ∈ e.event_type)

/-- `counter[tag] += 1` on a `collections.Counter` (line 130): an existing key keeps
its position and its count is incremented; a new key is appended at the end with
count 1, recording first-encounter insertion order. -/
def counterIncr : List (List Char × Nat) → List Char → List (List Char × Nat)
  | [], t => [(t, 1)]
  | (k, v) :: rest, t =>
    if k = t then (k, v + 1) :: rest else (k, v) :: counterIncr rest t

/-- Effect of one loop iteration on the counter (lines 128-130). -/
def tagStep (c : List (List Char × Nat)) (e : Event) : List (List Char × Nat) :=
  match extractTag e.event_type with
  | some t => counterIncr c t
  | none => c

/-- `Counter.most_common(1)[0]` (line 134): among the insertion-ordered entries, the
first key to attain the maximal count wins ties (`heapq.nlargest` is stable towards
earlier items); `none` on an empty counter. -/
def mostCommon1 : List (List Char × Nat) → Option (List Char × Nat)
  | [] => none
  | (k, v) :: rest =>
    match mostCommon1 rest with
    | none => some (k, v)
    | some (k2, v2) => if v < v2 then some (k2, v2) else some (k, v)

/-- The `event_data` record forwarded to the logger for every event (lines 117-125). -/
structure EventRecord where
  timestamp : List Char
  event_type : List Char
  actor : List Char
  origin : List Char
  assets : List Char
deriving DecidableEq

def eventRecord (e : Event) : EventRecord :=
  ⟨e.timestamp, e.event_type, e.actor, e.origin, e.assets⟩

/-- The mutable state of the loop in `process_team_events`: the running `count`,
the `Counter`, and the records already forwarded to the Reporter sink. -/
structure RunState where
  count : Nat
  counter : List (List Char × Nat)
  reported : List EventRecord
deriving DecidableEq

/-- The body of the `for event in ...` loop (lines 113-130): increment `count`,
log the event record, then update the counter from the extracted tag. -/
def processEvent (st : RunState) (e : Event) : RunState :=
  { count := st.count + 1
    counter := tagStep st.counter e
    reported := st.reported ++ [eventRecord e] }

/-- Consuming a finite event sequence to exhaustion, starting from count 0 and an
empty counter (lines 108-130). -/
def processEvents (events : List Event) : RunState :=
  events.foldl processEvent ⟨0, [], []⟩

/-- The end-of-run summary (lines 133-137). -/
inductive FinalReport where
  | mostCommonIs (tag : List Char) (frequency : Nat)
  | noEventsFound
deriving DecidableEq

/-- Lines 133-137: a non-empty counter reports `most_common(1)[0]`; an empty one
reports the explicit "No events found in the specified time range." message. -/
def finalReport (c : List (List Char × Nat)) : FinalReport :=
  match mostCommon1 c with
  | some (t, f) => FinalReport.mostCommonIs t f
  | none => FinalReport.noEventsFound

/-- Sum of all counts in the tally. -/
def sumCounts (c : List (List Char × Nat)) : Nat := (c.map Prod.snd).sum

/-- A page returned by `team_log_get_events` / `team_log_get_events_continue`. -/
structure Page where
  events : List Event
  cursor : String
  has_more : Bool
deriving DecidableEq

/-- What the remote returns to one API call inside the fetch loop (lines 76-98):
a page, a `RateLimitError` carrying an optional `backoff`, or a non-throttling
`ApiError`. -/
inductive Response where
  | page (p : Page)
  | rateLimited (backoff : Option Int)
  | apiError
deriving DecidableEq

def Response.isThrottle : Response → Bool
  | Response.rateLimited _ => true
  | _ => false

/-- Line 91: `wait_time = e.backoff or 5`. Python's `or` takes the default exactly
when `backoff` is falsy, i.e. `None` or `0`; any other value, negative included,
is returned as-is. -/
def backoffDecision : Option Int → Int
  | none => 5
  | some w => if w = 0 then 5 else w

/-- `True` unless the response is a throttling signal whose decided wait is
negative, i.e. a `RateLimitError` with a negative `backoff` (a truthy value that
`or 5` keeps). On such a response `time.sleep` raises `ValueError`. -/
def safeSleep : Response → Bool
  | Response.rateLimited b => decide (0 ≤ backoffDecision b)
  | _ => true

/-- Observable steps of the generator `_fetch_team_events`. `raiseValueError w`
records `time.sleep(w)` raising `ValueError` for a negative `w`: the exception
matches neither `except` clause, so it escapes the generator and nothing further
happens inside it. -/
inductive Action where
  | requestInitial (start_time : Int)
  | requestContinue (cursor : String)
  | yieldEvent (e : Event)
  | logRateLimitWarning
  | sleepFor (w : Int)
  | raiseValueError (w : Int)
  | logApiError
deriving DecidableEq

/-- Lines 78-81: with no cursor the windowed query is issued, otherwise the
continuation query with the held cursor. -/
def reqOf (start_time : Int) : Option String → Action
  | none => Action.requestInitial start_time
  | some c => Action.requestContinue c

/-- The `while has_more` loop of `_fetch_team_events` (lines 72-98), driven by the
script of remote responses. A successful page yields its events and then updates
`cursor` and `has_more` (lines 83-87); a `RateLimitError` logs a warning and calls
`time.sleep(backoffDecision backoff)` (lines 89-94): a non-negative wait sleeps and
retries with the cursor unchanged, while a negative wait makes `time.sleep` raise
`ValueError`, which matches neither `except` clause and escapes the generator with
no retry; an `ApiError` logs an error and breaks (lines 96-98), so the generator
terminates normally there. An exhausted script while `has_more` holds produces no
further actions. -/
def fetchLoop (start_time : Int) : Option String → List Response → List Action
  | _, [] => []
  | cursor, Response.page p :: rest =>
    reqOf start_time cursor ::
      (p.events.map Action.yieldEvent ++
        if p.has_more then fetchLoop start_time (some p.cursor) rest else [])
  | cursor, Response.rateLimited b :: rest =>
    reqOf start_time cursor :: Action.logRateLimitWarning ::
      (if backoffDecision b < 0 then
        [Action.raiseValueError (backoffDecision b)]
      else
        Action.sleepFor (backoffDecision b) :: fetchLoop start_time cursor rest)
  | cursor, Response.apiError :: _ =>
    [reqOf start_time cursor, Action.logApiError]

def isYield : Action → Option Event
  | Action.yieldEvent e => some e
  | _ => none

/-- The events the generator yields, in order, read off its action trace. -/
def yieldedEvents (tr : List Action) : List Event := tr.filterMap isYield

def fetchEvents (start_time : Int) (rs : List Response) : List Event :=
  yieldedEvents (fetchLoop start_time none rs)

def isRaise : Action → Bool
  | Action.raiseValueError _ => true
  | _ => false

/-- Whether the generator's run ends with an exception escaping it (the
`ValueError` from a negative sleep; it is always the last action of the trace). -/
def fetchRaised (tr : List Action) : Bool := tr.any isRaise

/-- Line 70: `start_time = datetime.now(utc) - timedelta(minutes=lookback_minutes)`,
with instants as integer minutes. The code performs no validation of
`lookback_minutes`; in particular negative values are accepted. -/
def windowStart (now lookback_minutes : Int) : Int := now - lookback_minutes

/-- How `process_team_events` hands control back to its caller. -/
inductive ProcOutcome where
  | returned (count : Nat) (report : FinalReport)
  | raisedAfter (count : Nat)
deriving DecidableEq

/-- `process_team_events` (lines 100-141) driven by a response script. Because the
generator catches `ApiError` and breaks (lines 96-98), a remote failure does not
reach the `try`/`except` of `process_team_events`: that run returns normally with
the summary built from whatever events were yielded before termination. A
`ValueError` from a negative sleep, however, escapes the generator, is caught by
`except Exception` (lines 139-141), logged with the count of events processed so
far, and re-raised: the `raisedAfter` outcome. All events yielded before the
raise were already counted and forwarded. -/
def process_team_events (start_time : Int) (rs : List Response) : ProcOutcome :=
  let tr := fetchLoop start_time none rs
  let st := processEvents (yieldedEvents tr)
  if fetchRaised tr then ProcOutcome.raisedAfter st.count
  else ProcOutcome.returned st.count (finalReport st.counter)

/-- An event whose rendered `event_type` is `'A'`. -/
def evA : Event := ⟨[], [quote, 'A', quote], [], [], []⟩

/-- An event whose rendered `event_type` is `'B'`. -/
def evB : Event := ⟨[], [quote, 'B', quote], [], [], []⟩

/-- An event whose rendered `event_type` is two adjacent single quotes, so the
extracted tag is the empty string. -/
def evQQ : Event := ⟨[], [quote, quote], [], [], []⟩

/-- Formalises the spec's phrase "non-empty extractable tag": a tag is extracted
and it is not the empty string. -/
def hasNonemptyTag (e : Event) : Bool :=
  match extractTag e.event_type with
  | some t => !t.isEmpty
  | none => false

/-! ### Helper lemmas about splitting and the counter -/

theorem pySplit_ne_nil (sep : Char) (s : List Char) : pySplit sep s ≠ [] := by
  induction s with
  | nil => simp [pySplit]
  | cons c rest ih =>
    unfold pySplit
    by_cases h : c = sep
    · simp [h]
    · simp only [h, if_false]
      cases hr : pySplit sep rest with
      | nil => simp
      | cons a t => simp

theorem pySplit_length (sep : Char) (s : List Char) (h : sep ∈ s) :
    2 ≤ (pySplit sep s).length := by
  induction s with
  | nil => cases h
  | cons c rest ih =>
    unfold pySplit
    by_cases hc : c = sep
    · have h1 : 0 < (pySplit sep rest).length :=
        List.length_pos.mpr (pySplit_ne_nil sep rest)
      simp only [hc, if_true, List.length_cons]
      omega
    · have hm : sep ∈ rest := by
        rcases List.mem_cons.mp h with h0 | h0
        · exact absurd h0.symm hc
        · exact h0
      have h2 := ih hm
      simp only [hc, if_false]
      cases hr : pySplit sep rest with
      | nil => exact absurd hr (pySplit_ne_nil sep rest)
      | cons a t =>
        rw [hr] at h2
        simp only [List.length_cons] at h2 ⊢
        omega

theorem extractTag_isSome (s : List Char) (h : quote ∈ s) :
    ∃ t, extractTag s = some t := by
  have h2 := pySplit_length quote s h
  have hlt : 1 < (pySplit quote s).length := by omega
  refine ⟨(pySplit quote s).get ⟨1, hlt⟩, ?_⟩
  have h1 : (pySplit quote s)[1]? = some ((pySplit quote s).get ⟨1, hlt⟩) := by
    rw [List.getElem?_eq_getElem hlt]
    simp [List.get_eq_getElem]
  simp [extractTag, h, h1]

theorem sumCounts_nil : sumCounts [] = 0 := rfl

theorem sumCounts_cons (p : List Char × Nat) (c : List (List Char × Nat)) :
    sumCounts (p :: c) = p.2 + sumCounts c := by
  simp [sumCounts]

theorem sumCounts_counterIncr (c : List (List Char × Nat)) (t : List Char) :
    sumCounts (counterIncr c t) = sumCounts c + 1 := by
  induction c with
  | nil => simp [counterIncr, sumCounts]
  | cons p rest ih =>
    obtain ⟨k, v⟩ := p
    unfold counterIncr
    by_cases h : k = t
    · simp only [h, if_true, sumCounts_cons]
      omega
    · simp only [h, if_false, sumCounts_cons, ih]
      omega

theorem counterIncr_pos (c : List (List Char × Nat)) (t : List Char)
    (h : ∀ p ∈ c, 1 ≤ p.2) : ∀ p ∈ counterIncr c t, 1 ≤ p.2 := by
  induction c with
  | nil =>
    intro p hp
    simp [counterIncr] at hp
    simp [hp]
  | cons q rest ih =>
    obtain ⟨k, v⟩ := q
    intro p hp
    unfold counterIncr at hp
    by_cases hk : k = t
    · simp only [hk, if_true, List.mem_cons] at hp
      rcases hp with hp | hp
      · subst hp; simp
      · exact h p (List.mem_cons_of_mem _ hp)
    · simp only [hk, if_false, List.mem_cons] at hp
      rcases hp with hp | hp
      · subst hp; exact h (k, v) (List.mem_cons_self _ _)
      · exact ih (fun q hq => h q (List.mem_cons_of_mem _ hq)) p hp

/-! ### Helper lemmas about mostCommon1 -/

theorem mostCommon1_isSome (c : List (List Char × Nat)) (h : c ≠ []) :
    ∃ q, mostCommon1 c = some q := by
  cases c with
  | nil => exact absurd rfl h
  | cons p rest =>
    obtain ⟨k, v⟩ := p
    unfold mostCommon1
    cases hr : mostCommon1 rest with
    | none => exact ⟨(k, v), rfl⟩
    | some q2 =>
      obtain ⟨k2, v2⟩ := q2
      by_cases hv : v < v2
      · exact ⟨(k2, v2), by simp [hv]⟩
      · exact ⟨(k, v), by simp [hv]⟩

theorem mostCommon1_mem (c : List (List Char × Nat)) (p : List Char × Nat)
    (h : mostCommon1 c = some p) : p ∈ c := by
  induction c generalizing p with
  | nil => simp [mostCommon1] at h
  | cons q rest ih =>
    obtain ⟨k, v⟩ := q
    unfold mostCommon1 at h
    cases hr : mostCommon1 rest with
    | none =>
      rw [hr] at h
      simp only [Option.some.injEq] at h
      simp [← h]
    | some q2 =>
      obtain ⟨k2, v2⟩ := q2
      rw [hr] at h
      by_cases hv : v < v2
      · simp only [hv, if_true, Option.some.injEq] at h
        exact List.mem_cons_of_mem _ (ih p (by rw [hr, h]))
      · simp only [hv, if_false, Option.some.injEq] at h
        simp [← h]

theorem mostCommon1_le (c : List (List Char × Nat)) (k : List Char) (v : Nat)
    (h : mostCommon1 c = some (k, v)) : ∀ p ∈ c, p.2 ≤ v := by
  induction c generalizing k v with
  | nil => simp [mostCommon1] at h
  | cons q rest ih =>
    obtain ⟨k0, v0⟩ := q
    unfold mostCommon1 at h
    intro p hp
    cases hr : mostCommon1 rest with
    | none =>
      rw [hr] at h
      have hrest : rest = [] := by
        cases rest with
        | nil => rfl
        | cons a t => rcases mostCommon1_isSome (a :: t) (by simp) with ⟨q, hq⟩; rw [hq] at hr; cases hr
      simp only [Option.some.injEq, Prod.mk.injEq] at h
      subst hrest
      rcases List.mem_cons.mp hp with hp | hp
      · subst hp; omega
      · cases hp
    | some q2 =>
      obtain ⟨k2, v2⟩ := q2
      rw [hr] at h
      by_cases hv : v0 < v2
      · simp only [hv, if_true, Option.some.injEq, Prod.mk.injEq] at h
        rcases List.mem_cons.mp hp with hp | hp
        · subst hp; simp only; omega
        · have := ih k2 v2 hr p hp; omega
      · simp only [hv, if_false, Option.some.injEq, Prod.mk.injEq] at h
        rcases List.mem_cons.mp hp with hp | hp
        · subst hp; omega
        · have := ih k2 v2 hr p hp; omega

theorem mostCommon1_first (c : List (List Char × Nat)) (k : List Char) (v : Nat)
    (h : mostCommon1 c = some (k, v)) :
    ∃ c1 c2, c = c1 ++ (k, v) :: c2 ∧ ∀ p ∈ c1, p.2 < v := by
  induction c generalizing k v with
  | nil => simp [mostCommon1] at h
  | cons q rest ih =>
    obtain ⟨k0, v0⟩ := q
    unfold mostCommon1 at h
    cases hr : mostCommon1 rest with
    | none =>
      rw [hr] at h
      simp only [Option.some.injEq, Prod.mk.injEq] at h
      exact ⟨[], rest, by simp [h.1, h.2], by simp⟩
    | some q2 =>
      obtain ⟨k2, v2⟩ := q2
      rw [hr] at h
      by_cases hv : v0 < v2
      · simp only [hv, if_true, Option.some.injEq, Prod.mk.injEq] at h
        obtain ⟨hk, hv2⟩ := h
        rcases ih k2 v2 hr with ⟨c1, c2, hsplit, hlt⟩
        refine ⟨(k0, v0) :: c1, c2, ?_, ?_⟩
        · simp [hsplit, hk, hv2]
        · intro p hp
          rcases List.mem_cons.mp hp with hp | hp
          · subst hp
            show v0 < v
            omega
          · have := hlt p hp
            omega
      · simp only [hv, if_false, Option.some.injEq, Prod.mk.injEq] at h
        exact ⟨[], rest, by simp [h.1, h.2], by simp⟩

/-! ### Helper lemmas about the processing loop -/

theorem tagStep_noQuote (c : List (List Char × Nat)) (e : Event)
    (h : hasQuote e = false) : tagStep c e = c := by
  have hm : quote ∉ e.event_type := of_decide_eq_false h
  simp [tagStep, extractTag, hm]

theorem tagStep_quote (c : List (List Char × Nat)) (e : Event)
    (h : hasQuote e = true) :
    ∃ t, extractTag e.event_type = some t ∧ tagStep c e = counterIncr c t := by
  have hm : quote ∈ e.event_type := of_decide_eq_true h
  rcases extractTag_isSome _ hm with ⟨t, ht⟩
  exact ⟨t, ht, by simp [tagStep, ht]⟩

theorem foldl_processEvent_counter (evs : List Event) (st : RunState) :
    (evs.foldl processEvent st).counter = evs.foldl tagStep st.counter := by
  induction evs generalizing st with
  | nil => rfl
  | cons e rest ih => simp only [List.foldl_cons, ih, processEvent]

theorem foldl_processEvent_reported (evs : List Event) (st : RunState) :
    (evs.foldl processEvent st).reported = st.reported ++ evs.map eventRecord := by
  induction evs generalizing st with
  | nil => simp
  | cons e rest ih =>
    simp only [List.foldl_cons, ih, processEvent, List.map_cons]
    simp

theorem foldl_processEvent_count (evs : List Event) (st : RunState) :
    (evs.foldl processEvent st).count = st.count + evs.length := by
  induction evs generalizing st with
  | nil => simp
  | cons e rest ih =>
    simp only [List.foldl_cons, ih, processEvent, List.length_cons]
    omega

theorem foldl_tagStep_filter (evs : List Event) (c : List (List Char × Nat)) :
    (evs.filter hasQuote).foldl tagStep c = evs.foldl tagStep c := by
  induction evs generalizing c with
  | nil => rfl
  | cons e rest ih =>
    by_cases h : hasQuote e = true
    · simp [List.filter_cons, h, ih]
    · have h0 : hasQuote e = false := by
        cases hq : hasQuote e
        · rfl
        · exact absurd hq h
      simp [List.filter_cons, h0, ih, tagStep_noQuote c e h0]

theorem sumCounts_foldl_tagStep (evs : List Event) (c : List (List Char × Nat)) :
    sumCounts (evs.foldl tagStep c) = sumCounts c + evs.countP hasQuote := by
  induction evs generalizing c with
  | nil => simp [List.countP_nil]
  | cons e rest ih =>
    by_cases h : hasQuote e = true
    · rcases tagStep_quote c e h with ⟨t, _, hts⟩
      simp only [List.foldl_cons, List.countP_cons, h, if_true, hts, ih,
        sumCounts_counterIncr]
      omega
    · have h0 : hasQuote e = false := by
        cases hq : hasQuote e
        · rfl
        · exact absurd hq h
      simp only [List.foldl_cons, List.countP_cons, h0, tagStep_noQuote c e h0, ih]
      simp

theorem foldl_tagStep_pos (evs : List Event) (c : List (List Char × Nat))
    (h : ∀ p ∈ c, 1 ≤ p.2) : ∀ p ∈ evs.foldl tagStep c, 1 ≤ p.2 := by
  induction evs generalizing c with
  | nil => exact h
  | cons e rest ih =>
    simp only [List.foldl_cons]
    apply ih
    intro p hp
    unfold tagStep at hp
    cases ht : extractTag e.event_type with
    | none => rw [ht] at hp; exact h p hp
    | some t => rw [ht] at hp; exact counterIncr_pos c t h p hp

/-! ### Helper lemmas about the fetch loop trace -/

theorem isYield_reqOf (s : Int) (c : Option String) : isYield (reqOf s c) = none := by
  cases c <;> rfl

theorem yieldedEvents_nil : yieldedEvents [] = [] := rfl

theorem yieldedEvents_cons_reqOf (s : Int) (c : Option String) (tr : List Action) :
    yieldedEvents (reqOf s c :: tr) = yieldedEvents tr := by
  simp [yieldedEvents, List.filterMap_cons, isYield_reqOf]

theorem yieldedEvents_append (a b : List Action) :
    yieldedEvents (a ++ b) = yieldedEvents a ++ yieldedEvents b := by
  simp [yieldedEvents]

theorem yieldedEvents_map_yield (evs : List Event) :
    yieldedEvents (evs.map Action.yieldEvent) = evs := by
  induction evs with
  | nil => rfl
  | cons e rest ih =>
    simp only [List.map_cons, yieldedEvents, List.filterMap_cons, isYield] at ih ⊢
    rw [ih]

theorem fetchLoop_cons_page (s : Int) (c : Option String) (p : Page)
    (rest : List Response) :
    fetchLoop s c (Response.page p :: rest) =
      reqOf s c :: (p.events.map Action.yieldEvent ++
        if p.has_more then fetchLoop s (some p.cursor) rest else []) := by
  cases c <;> rfl

theorem fetchLoop_cons_rateLimited (s : Int) (c : Option String) (b : Option Int)
    (rest : List Response) :
    fetchLoop s c (Response.rateLimited b :: rest) =
      reqOf s c :: Action.logRateLimitWarning ::
        (if backoffDecision b < 0 then
          [Action.raiseValueError (backoffDecision b)]
        else
          Action.sleepFor (backoffDecision b) :: fetchLoop s c rest) := by
  cases c <;> rfl

theorem fetchLoop_cons_rateLimited_ok (s : Int) (c : Option String) (b : Option Int)
    (rest : List Response) (hb : 0 ≤ backoffDecision b) :
    fetchLoop s c (Response.rateLimited b :: rest) =
      reqOf s c :: Action.logRateLimitWarning ::
        Action.sleepFor (backoffDecision b) :: fetchLoop s c rest := by
  rw [fetchLoop_cons_rateLimited]
  have hn : ¬ backoffDecision b < 0 := by omega
  simp [hn]

theorem fetchLoop_cons_rateLimited_neg (s : Int) (c : Option String) (b : Option Int)
    (rest : List Response) (hb : backoffDecision b < 0) :
    fetchLoop s c (Response.rateLimited b :: rest) =
      [reqOf s c, Action.logRateLimitWarning,
        Action.raiseValueError (backoffDecision b)] := by
  rw [fetchLoop_cons_rateLimited]
  simp [hb]

theorem fetchLoop_cons_apiError (s : Int) (c : Option String)
    (rest : List Response) :
    fetchLoop s c (Response.apiError :: rest) =
      [reqOf s c, Action.logApiError] := by
  cases c <;> rfl

theorem events_filter_throttle (s : Int) (rs : List Response) :
    (∀ r ∈ rs, safeSleep r = true) →
    ∀ c, yieldedEvents (fetchLoop s c rs) =
      yieldedEvents (fetchLoop s c (rs.filter fun r => !r.isThrottle)) := by
  induction rs with
  | nil => intro _ c; rfl
  | cons r rest ih =>
    intro hs c
    have hrest : ∀ q ∈ rest, safeSleep q = true :=
      fun q hq => hs q (List.mem_cons_of_mem _ hq)
    cases r with
    | page p =>
      rw [List.filter_cons_of_pos (by rfl), fetchLoop_cons_page, fetchLoop_cons_page,
        yieldedEvents_cons_reqOf, yieldedEvents_cons_reqOf, yieldedEvents_append,
        yieldedEvents_append, yieldedEvents_map_yield]
      cases hm : p.has_more with
      | true => simp [ih hrest (some p.cursor)]
      | false => simp
    | rateLimited b =>
      have hb : 0 ≤ backoffDecision b := by
        have hr := hs (Response.rateLimited b) (List.mem_cons_self _ _)
        simpa [safeSleep] using hr
      rw [List.filter_cons_of_neg (by simp [Response.isThrottle]),
        fetchLoop_cons_rateLimited_ok s c b rest hb, yieldedEvents_cons_reqOf]
      rw [show yieldedEvents (Action.logRateLimitWarning ::
          Action.sleepFor (backoffDecision b) :: fetchLoop s c rest) =
          yieldedEvents (fetchLoop s c rest) from by
        simp [yieldedEvents, List.filterMap_cons, isYield]]
      exact ih hrest c
    | apiError =>
      rw [List.filter_cons_of_pos (by rfl), fetchLoop_cons_apiError,
        fetchLoop_cons_apiError]

theorem fetch_pages_events (s : Int) (ps : List Page) :
    ∀ c, (∀ p ∈ ps.dropLast, p.has_more = true) →
      (∀ p, ps.getLast? = some p → p.has_more = false) →
      yieldedEvents (fetchLoop s c (ps.map Response.page)) =
        (ps.map Page.events).flatten := by
  induction ps with
  | nil => intro c _ _; rfl
  | cons p rest ih =>
    intro c hmid hlast
    cases rest with
    | nil =>
      have hp : p.has_more = false := hlast p rfl
      simp [fetchLoop, hp, yieldedEvents_cons_reqOf, yieldedEvents_append,
        yieldedEvents_map_yield, yieldedEvents_nil]
    | cons q t =>
      have hp : p.has_more = true := hmid p (by simp)
      have h1 : ∀ r ∈ (q :: t).dropLast, r.has_more = true := by
        intro r hr
        exact hmid r (by rw [List.dropLast_cons₂]; exact List.mem_cons_of_mem _ hr)
      have h2 : ∀ r, (q :: t).getLast? = some r → r.has_more = false := by
        intro r hr
        exact hlast r (by rw [List.getLast?_cons_cons]; exact hr)
      have hinner := ih (some p.cursor) h1 h2
      simp only [List.map_cons] at hinner
      rw [List.map_cons, fetchLoop_cons_page, yieldedEvents_cons_reqOf,
        yieldedEvents_append, yieldedEvents_map_yield]
      simp [hp, hinner]

/-! ### Claim theorems -/

/-- The response script for claim C1: one successful page of three events with
has_more set, then a non-throttling ApiError on the continuation call. -/
def c1Script : List Response :=
  [Response.page ⟨[evA, evB, evA], "cursor1", true⟩, Response.apiError]

/-- C1: the spec says a non-recoverable ApiError during fetching preserves the
partial tally and is then re-raised to the caller exactly once. On the code,
after 3 events and an ApiError the generator logs the error once and breaks
(lines 96-98), terminating normally: process_team_events returns its summary
built from exactly those 3 events and no error ever reaches the caller. The
partial tally is indeed preserved, but the error is swallowed, contradicting
the claim and the generator's own docstring ("Raises: ApiError: If an
unrecoverable error occurs during the API call."). -/
theorem c1_apiError_swallowed :
    process_team_events 0 c1Script =
      ProcOutcome.returned 3 (FinalReport.mostCommonIs ['A'] 2) ∧
    (fetchLoop 0 none c1Script).countP
      (fun a => decide (a = Action.logApiError)) = 1 ∧
    fetchEvents 0 c1Script = [evA, evB, evA] := by
  decide

/-- C2 counterexample: with now = 0 and lookback −5, line 70 computes
start_time = 5, strictly in the future, and the fetch loop issues the initial
query with that start time; no configuration error is raised anywhere on this
path, refuting the claim that negative lookbacks fail before fetching. -/
theorem c2_counterexample :
    windowStart 0 (-5) = 5 ∧ (0 : Int) < windowStart 0 (-5) ∧
    (fetchLoop (windowStart 0 (-5)) none
        [Response.page ⟨[], "c0", false⟩]).head? =
      some (Action.requestInitial 5) := by
  decide

/-- C2 amended: for every negative lookback duration no configuration error is
raised; the computed start_time = now − lookback lies strictly in the future,
and the fetch pipeline is entered anyway, issuing the initial query with that
future start time. -/
theorem c2_no_validation (now lb : Int) (h : lb < 0) :
    now < windowStart now lb ∧
    ∀ (r : Response) (rs : List Response),
      (fetchLoop (windowStart now lb) none (r :: rs)).head? =
        some (Action.requestInitial (windowStart now lb)) := by
  constructor
  · unfold windowStart
    omega
  · intro r rs
    cases r with
    | page p => rw [fetchLoop_cons_page]; rfl
    | rateLimited b => rw [fetchLoop_cons_rateLimited]; rfl
    | apiError => rw [fetchLoop_cons_apiError]; rfl

/-- C2 amended, witnessed at now = 0, lookback = −5. -/
theorem c2_no_validation_witness :
    (0 : Int) < windowStart 0 (-5) ∧
    (fetchLoop (windowStart 0 (-5)) none [Response.apiError]).head? =
      some (Action.requestInitial (windowStart 0 (-5))) :=
  ⟨(c2_no_validation 0 (-5) (by decide)).1,
   (c2_no_validation 0 (-5) (by decide)).2 Response.apiError []⟩

/-- C3 counterexample: a throttling signal with suggested wait −3 makes
`e.backoff or 5` return −3, not the default 5, because Python's `or` only
replaces falsy values (None and 0), refuting the claim that every non-positive
suggested wait falls back to the default. -/
theorem c3_counterexample :
    backoffDecision (some (-3)) = -3 ∧ backoffDecision (some (-3)) ≠ 5 := by
  decide

/-- C3 amended: the backoff decision returns W whenever the suggested wait W is
present and nonzero (negative W included, not replaced by the default), and the
fixed default of 5 when W is absent or zero; when the returned duration is
non-negative the fetcher then pauses for exactly that duration before retrying
with the cursor unchanged, while a negative returned duration makes time.sleep
raise ValueError instead of pausing, and no retry occurs. -/
theorem c3_backoff (w : Int) (hw : w ≠ 0) :
    backoffDecision (some w) = w ∧
    backoffDecision none = 5 ∧ backoffDecision (some 0) = 5 ∧
    (∀ (s : Int) (c : Option String) (b : Option Int) (rest : List Response),
      0 ≤ backoffDecision b →
      fetchLoop s c (Response.rateLimited b :: rest) =
        reqOf s c :: Action.logRateLimitWarning ::
          Action.sleepFor (backoffDecision b) :: fetchLoop s c rest) ∧
    (∀ (s : Int) (c : Option String) (b : Option Int) (rest : List Response),
      backoffDecision b < 0 →
      fetchLoop s c (Response.rateLimited b :: rest) =
        [reqOf s c, Action.logRateLimitWarning,
          Action.raiseValueError (backoffDecision b)]) := by
  exact ⟨by simp [backoffDecision, hw], rfl, rfl,
    fun s c b rest hb => fetchLoop_cons_rateLimited_ok s c b rest hb,
    fun s c b rest hb => fetchLoop_cons_rateLimited_neg s c b rest hb⟩

/-- C3 amended, witnessed at W = 7 (pause and retry) and W = −3 (raise). -/
theorem c3_backoff_witness :
    backoffDecision (some 7) = 7 ∧
    fetchLoop 0 none [Response.rateLimited (some 7)] =
      [Action.requestInitial 0, Action.logRateLimitWarning, Action.sleepFor 7] ∧
    fetchLoop 0 none [Response.rateLimited (some (-3))] =
      [Action.requestInitial 0, Action.logRateLimitWarning,
        Action.raiseValueError (-3)] := by
  refine ⟨(c3_backoff 7 (by decide)).1, ?_, ?_⟩
  · have h := (c3_backoff 7 (by decide)).2.2.2.1 0 none (some 7) [] (by decide)
    rw [h]
    decide
  · have h := (c3_backoff 7 (by decide)).2.2.2.2 0 none (some (-3)) [] (by decide)
    rw [h]
    decide

/-- C4 counterexample: an event whose rendered event_type is two adjacent single
quotes has an extractable but empty tag; it is still counted, so after this one
event the tally sums to 1 while the number of events with a non-empty extractable
tag is 0, refuting the claimed equality. -/
theorem c4_counterexample :
    sumCounts (processEvents [evQQ]).counter = 1 ∧
    List.countP hasNonemptyTag [evQQ] = 0 := by
  decide

/-- C4 amended: for every finite event sequence consumed to exhaustion, the sum
of all counts in the tally equals the number of events whose rendered event_type
contains at least one single-quote character (the extracted tag may be the empty
string and is still counted); every event is forwarded to the Reporter, and
events without a single quote contribute to no tally entry: the final tally is
the one obtained from the quoted events alone. -/
theorem c4_tally_sum (events : List Event) :
    sumCounts (processEvents events).counter = events.countP hasQuote ∧
    (processEvents events).reported = events.map eventRecord ∧
    (processEvents events).counter =
      (processEvents (events.filter hasQuote)).counter := by
  refine ⟨?_, ?_, ?_⟩
  · rw [processEvents, foldl_processEvent_counter, sumCounts_foldl_tagStep]
    simp [sumCounts]
  · rw [processEvents, foldl_processEvent_reported]
    simp
  · rw [processEvents, processEvents, foldl_processEvent_counter,
      foldl_processEvent_counter, foldl_tagStep_filter]

/-- The script for C5's counterexample: a throttling signal with suggested wait
−3 followed by a one-event page. -/
def c5Script : List Response :=
  [Response.rateLimited (some (-3)), Response.page ⟨[evA], "k0", false⟩]

/-- C5 counterexample: a throttling signal with suggested wait −3 gives decided
wait −3 (`-3 or 5` keeps −3), and time.sleep raises ValueError, which escapes
the fetch layer to the caller: the run ends in the re-raise path with 0 events
processed and the subsequent page's events are never yielded, although the same
run without the throttling signal yields them. The throttling signal is not
absorbed, refuting the claim as universally quantified over signals. -/
theorem c5_counterexample :
    process_team_events 0 c5Script = ProcOutcome.raisedAfter 0 ∧
    fetchEvents 0 c5Script = [] ∧
    fetchEvents 0 (c5Script.filter fun r => !r.isThrottle) = [evA] := by
  decide

/-- C5 amended: a throttling signal whose decided wait is non-negative
(suggested wait absent, zero, or positive) never surfaces past the fetch layer:
the fetcher logs, pauses, and re-issues the same query with the cursor
unchanged, yielding no event from the throttled attempt; and in every run all
of whose throttling signals have non-negative decided waits, each successfully
fetched page's events appear exactly once — the run's events equal those of the
throttle-free run. A throttling signal with a negative suggested wait instead
makes time.sleep raise ValueError, which escapes the fetch layer. -/
theorem c5_throttling_absorbed (rs : List Response)
    (hs : ∀ r ∈ rs, safeSleep r = true) :
    (∀ (s : Int) (c : Option String) (b : Option Int) (rest : List Response),
      0 ≤ backoffDecision b →
      fetchLoop s c (Response.rateLimited b :: rest) =
        reqOf s c :: Action.logRateLimitWarning ::
          Action.sleepFor (backoffDecision b) :: fetchLoop s c rest) ∧
    ∀ s : Int,
      fetchEvents s rs = fetchEvents s (rs.filter fun r => !r.isThrottle) := by
  refine ⟨fun s c b rest hb => fetchLoop_cons_rateLimited_ok s c b rest hb, ?_⟩
  intro s
  exact events_filter_throttle s rs hs none

/-- C5 amended, witnessed on a run with one default-wait throttle before a
one-event page: the run's events equal the throttle-free run's events. -/
theorem c5_throttling_absorbed_witness :
    fetchEvents 0 [Response.rateLimited none,
        Response.page ⟨[evA], "p1", false⟩] =
      fetchEvents 0 ([Response.rateLimited none,
        Response.page ⟨[evA], "p1", false⟩].filter fun r => !r.isThrottle) :=
  (c5_throttling_absorbed _ (by decide)).2 0

/-- C6: ties in the tally are broken by first-encountered insertion order.
Concretely the event-tag sequence [A, B, A, B] reports A with count 2; in
general the winner returned by most_common(1) attains the maximal count and
every entry placed before it in the insertion-ordered tally has a strictly
smaller count, so the first tag to reach the maximum wins. -/
theorem c6_tiebreak_first_wins :
    finalReport (processEvents [evA, evB, evA, evB]).counter =
      FinalReport.mostCommonIs ['A'] 2 ∧
    ∀ (c : List (List Char × Nat)) (k : List Char) (v : Nat),
      mostCommon1 c = some (k, v) →
        (∀ p ∈ c, p.2 ≤ v) ∧
        ∃ c1 c2, c = c1 ++ (k, v) :: c2 ∧ ∀ p ∈ c1, p.2 < v := by
  refine ⟨by decide, ?_⟩
  intro c k v h
  exact ⟨mostCommon1_le c k v h, mostCommon1_first c k v h⟩

/-- C6 witnessed on the tally produced by the tag sequence [A, B, A, B]. -/
theorem c6_tiebreak_first_wins_witness :
    (∀ p ∈ [((['A'] : List Char), 2), (['B'], 2)], p.2 ≤ 2) ∧
    ∃ c1 c2, [((['A'] : List Char), 2), (['B'], 2)] = c1 ++ (['A'], 2) :: c2 ∧
      ∀ p ∈ c1, p.2 < 2 :=
  c6_tiebreak_first_wins.2 [(['A'], 2), (['B'], 2)] ['A'] 2 (by decide)

/-- C7: a run whose tally ends empty (in particular the empty stream) reports
the explicit no-events message, and a reported winner always carries a count of
at least 1 — never a degenerate count-0 winner. -/
theorem c7_empty_tally (events : List Event) :
    finalReport (processEvents ([] : List Event)).counter =
      FinalReport.noEventsFound ∧
    ((processEvents events).counter = [] →
      finalReport (processEvents events).counter = FinalReport.noEventsFound) ∧
    (∀ t f, finalReport (processEvents events).counter =
        FinalReport.mostCommonIs t f → 1 ≤ f) := by
  refine ⟨by decide, ?_, ?_⟩
  · intro h
    rw [h]
    rfl
  · intro t f h
    have hpos : ∀ p ∈ (processEvents events).counter, 1 ≤ p.2 := by
      rw [processEvents, foldl_processEvent_counter]
      refine foldl_tagStep_pos events _ ?_
      intro p hp
      cases hp
    cases hmc : mostCommon1 (processEvents events).counter with
    | none =>
      simp only [finalReport, hmc] at h
      exact FinalReport.noConfusion h
    | some q =>
      obtain ⟨t0, f0⟩ := q
      simp only [finalReport, hmc] at h
      injection h with h1 h2
      have := hpos (t0, f0) (mostCommon1_mem _ _ hmc)
      omega

/-- C7 witnessed: the empty stream reports no events, and the singleton quoted
stream reports its tag with count 1 ≥ 1. -/
theorem c7_empty_tally_witness :
    finalReport (processEvents ([] : List Event)).counter =
      FinalReport.noEventsFound ∧ 1 ≤ 1 :=
  ⟨(c7_empty_tally []).1,
   (c7_empty_tally [evA]).2.2 ['A'] 1 (by decide)⟩

/-- C8: for every terminating sequence of pages served by the remote (each
non-final page with has_more true, the final page with has_more false), the
stream yields exactly the concatenation of the pages' event sequences in order,
with no reordering, duplication or deduplication; and the per-page trace shape
shows the next request is issued only after all of the current page's events
have been yielded. -/
theorem c8_ordering (s : Int) (ps : List Page)
    (hmid : ∀ p ∈ ps.dropLast, p.has_more = true)
    (hlast : ps.getLast?.all (fun p => !p.has_more) = true) :
    fetchEvents s (ps.map Response.page) = (ps.map Page.events).flatten ∧
    ∀ (c : Option String) (p : Page) (rest : List Response),
      fetchLoop s c (Response.page p :: rest) =
        reqOf s c :: (p.events.map Action.yieldEvent ++
          if p.has_more then fetchLoop s (some p.cursor) rest else []) := by
  have hl : ∀ p, ps.getLast? = some p → p.has_more = false := by
    intro p hp
    rw [hp] at hlast
    simpa [Option.all] using hlast
  exact ⟨fetch_pages_events s ps none hmid hl,
    fun c p rest => fetchLoop_cons_page s c p rest⟩

/-- The two-page script used to witness C8. -/
def c8Pages : List Page := [⟨[evA, evB], "k1", true⟩, ⟨[evQQ], "k2", false⟩]

/-- C8 witnessed on a two-page script: the yielded events are the concatenation
of the two pages. -/
theorem c8_ordering_witness :
    fetchEvents 0 (c8Pages.map Response.page) =
      (c8Pages.map Page.events).flatten :=
  (c8_ordering 0 c8Pages (by decide) (by decide)).1

/-- C9: for every lookback duration ≥ 0, the computed query start time
start_time = now − lookback satisfies start_time ≤ now at construction. -/
theorem c9_window_start_le_now (now lb : Int) (h : 0 ≤ lb) :
    windowStart now lb ≤ now := by
  unfold windowStart
  omega

/-- C9 witnessed at now = 100, lookback = 10. -/
theorem c9_window_start_le_now_witness : windowStart 100 10 ≤ 100 :=
  c9_window_start_le_now 100 10 (by decide)

/-- C10: tag extraction is total under its guard: whenever the rendered
event_type contains a single-quote character, splitting on the quote yields at
least two parts, so the index-1 access of line 129 never fails and extraction
returns some tag — processing an event can never raise an out-of-bounds error
from tag extraction. -/
theorem c10_extraction_safe (e : Event) (h : hasQuote e = true) :
    2 ≤ (pySplit quote e.event_type).length ∧
    ∃ t, extractTag e.event_type = some t := by
  have hm : quote ∈ e.event_type := of_decide_eq_true h
  exact ⟨pySplit_length quote e.event_type hm, extractTag_isSome e.event_type hm⟩

/-- C10 witnessed on an event whose rendered event_type is 'A'. -/
theorem c10_extraction_safe_witness :
    2 ≤ (pySplit quote evA.event_type).length ∧
    ∃ t, extractTag evA.event_type = some t :=
  c10_extraction_safe evA (by decide)

end DropboxMgr
